import Mathlib

/-!
Verification development for the review-harvesting pipeline of the
GoMarble assignment repository (src/app.py and src/main.py).

The two Python/JavaScript source files are shallowly embedded below:
pure text-processing functions become Lean functions on character lists,
the page-by-page harvest loop becomes a recursive function over the
sequence of per-page extraction outcomes, browser and language-model
capabilities (DOM queries, navigation, chat completion) are passed in as
explicit environment values, and fallible Python code is modelled with
the Except monad.
-/

/-- Whitespace test matching the JavaScript regex class \s on the ASCII
range (space, tab, newline, carriage return, vertical tab, form feed). -/
def isWS (c : Char) : Bool :=
  c = ' ' || c = '\t' || c = '\n' || c = '\r' || c = '\x0b' || c = '\x0c'

/-- Worker for collapseWS; the flag records whether the previous input
character was whitespace (in which case further whitespace is absorbed
into the single space already emitted). -/
def collapseWSAux : Bool → List Char → List Char
  | _, [] => []
  | prevWS, c :: cs =>
    if isWS c then
      if prevWS then collapseWSAux true cs
      else ' ' :: collapseWSAux true cs
    else c :: collapseWSAux false cs

/-- Collapse of every whitespace run to a single space, embedding the
JavaScript step text.replace(/\s+/g, ' ') of cleanText. -/
def collapseWS (l : List Char) : List Char :=
  collapseWSAux false l

/-- Trim of leading and trailing whitespace, embedding String.prototype.trim. -/
def trimWS (l : List Char) : List Char :=
  ((l.dropWhile isWS).reverse.dropWhile isWS).reverse

/-- Case-insensitive starts-with test used by the truncation regex of
cleanText. -/
def startsLower (pat : List Char) (l : List Char) : Bool :=
  pat.isPrefixOf (l.map Char.toLower)

/-- Truncation at the first case-insensitive occurrence of "read more",
"show more" or "see more", embedding the JavaScript step
text.split(/(?:read more|show more|see more)/i)[0] of cleanText. -/
def truncAt : List Char → List Char
  | [] => []
  | c :: cs =>
    if startsLower ('r' :: 'e' :: 'a' :: 'd' :: ' ' :: 'm' :: 'o' :: 'r' :: 'e' :: []) (c :: cs)
        || startsLower ('s' :: 'h' :: 'o' :: 'w' :: ' ' :: 'm' :: 'o' :: 'r' :: 'e' :: []) (c :: cs)
        || startsLower ('s' :: 'e' :: 'e' :: ' ' :: 'm' :: 'o' :: 'r' :: 'e' :: []) (c :: cs)
    then []
    else c :: truncAt cs

/-- Split on a single separator character keeping empty fields, embedding
JavaScript String.prototype.split with a one-character separator. -/
def splitChar (sep : Char) : List Char → List (List Char)
  | [] => [[]]
  | c :: cs =>
    if c = sep then [] :: splitChar sep cs
    else
      match splitChar sep cs with
      | w :: ws => (c :: w) :: ws
      | [] => [[c]]

/-- Join of words with single-space separators, embedding
Array.prototype.join(' '). -/
def joinSpace : List (List Char) → List Char
  | [] => []
  | [w] => w
  | w :: ws => w ++ ' ' :: joinSpace ws

/-- Substring containment test, embedding String.prototype.includes
(hay.includes pat reads containsSub pat hay). -/
def containsSub (pat : List Char) : List Char → Bool
  | [] => pat.isPrefixOf []
  | c :: cs => pat.isPrefixOf (c :: cs) || containsSub pat cs

/-- The repeated-3-word-phrase collapse loop of cleanText: a word is
skipped when the 3-word window starting at it (with more than two split
fields) already occurs in the output built so far. -/
def dedupWords : List (List Char) → List Char → List Char
  | [], cleaned => cleaned
  | w :: rest, cleaned =>
    let phrase := joinSpace ((w :: rest).take 3)
    if containsSub phrase cleaned && decide ((splitChar ' ' phrase).length > 2) then
      dedupWords rest cleaned
    else
      dedupWords rest (if cleaned.isEmpty then w else cleaned ++ ' ' :: w)

/-- Character-list core of the cleanText function shared by
src/main.py (grab_reviews page script) and src/app.py
(extract_reviews_traditional page script): whitespace collapse and trim,
truncation at the first "read more"/"show more"/"see more", then the
repeated-phrase collapse over the space-split words, and a final trim. -/
def cleanTextL (l : List Char) : List Char :=
  trimWS (dedupWords (splitChar ' ' (truncAt (trimWS (collapseWS l)))) [])

/-- The Text Normalizer cleanText as a function on strings. -/
def cleanText (s : String) : String :=
  ⟨cleanTextL s.data⟩

/-- A review value. Field names follow src/app.py (title, body, rating,
reviewer); src/main.py uses the same shape under the names text, stars
and user_name. The rating travels as an optional rational, standing for
the Python float that is only ever produced, compared and range-checked,
never computed with. -/
structure Review where
  title : String
  body : String
  rating : Option ℚ
  reviewer : String
deriving DecidableEq, Repr

/-- Bodies of a list of reviews, in order. -/
def bodies (l : List Review) : List String :=
  l.map Review.body

/-- One of the two identical for-loops of combine_extraction_methods
(src/app.py) and of the combining tail of grab_reviews (src/main.py):
walk the incoming reviews, keep those whose body is not in the seen set,
and return the grown output list together with the grown seen set. -/
def dedupAppend (seen : List String) (acc : List Review) : List Review → List Review × List String
  | [] => (acc, seen)
  | r :: rs =>
    if seen.contains r.body then dedupAppend seen acc rs
    else dedupAppend (r.body :: seen) (acc ++ [r]) rs

/-- The Extraction Combiner combine_extraction_methods of src/app.py:
seed the seen set from the heuristic output, then append only novel
LLM-guided reviews; a failure anywhere in the LLM path (modelled as an
Except value covering get_dynamic_selectors and the guided page script)
is caught, and the heuristic result is returned unchanged. -/
def combine_extraction_methods (trad : List Review) (llmPath : Except String (List Review)) :
    List Review :=
  let t := dedupAppend [] [] trad
  match llmPath with
  | .error _ => t.1
  | .ok llm => (dedupAppend t.2 t.1 llm).1

/-- Specification-side filter used to state claim C1: keep exactly those
reviews whose body differs from every body seen earlier (earlier output
reviews plus the growing kept part). -/
def novelFilter (earlier : List String) : List Review → List Review
  | [] => []
  | r :: rs =>
    if earlier.contains r.body then novelFilter earlier rs
    else r :: novelFilter (r.body :: earlier) rs

/-- Quote test of the selector-harvesting regex [\x27"]([^\x27"]+)[\x27"]
shared by get_dynamic_selectors (src/app.py) and grab_reviews
(src/main.py): either a single or a double quote opens and closes a
match. -/
def isQuote (c : Char) : Bool :=
  c = '\'' || c = '"'

/-- Scanner for re.findall with the pattern above: outside a quote
(state none) any quote character opens a candidate; inside a quote
(state some acc, collected characters reversed) a quote character closes
the match when at least one character was collected, and otherwise the
scan restarts treating the closing quote as a fresh opening one, exactly
as the regex engine does after the failed one-character advance. -/
def findQuotedAux : Option (List Char) → List Char → List (List Char)
  | _, [] => []
  | none, c :: cs =>
    if isQuote c then findQuotedAux (some []) cs else findQuotedAux none cs
  | some acc, c :: cs =>
    if isQuote c then
      if acc.isEmpty then findQuotedAux (some []) cs
      else acc.reverse :: findQuotedAux none cs
    else findQuotedAux (some (c :: acc)) cs

/-- All quoted selector substrings of a line, in order. -/
def findQuoted (l : List Char) : List String :=
  (findQuotedAux none l).map fun w => ⟨w⟩

/-- Characters strictly before the first occurrence of sep (the whole
list when sep never occurs): the first field of Python str.split. -/
def upToFirst (sep : List Char) : List Char → List Char
  | [] => []
  | c :: cs =>
    if sep.isPrefixOf (c :: cs) then []
    else c :: upToFirst sep cs

/-- Characters strictly after the first occurrence of sep, when sep
occurs at all. -/
def afterFirst (sep : List Char) : List Char → Option (List Char)
  | [] => none
  | c :: cs =>
    if sep.isPrefixOf (c :: cs) then some ((c :: cs).drop sep.length)
    else afterFirst sep cs

/-- Python line.split(label)[1]: the slice between the first and second
occurrence of the label (to the end when the label occurs once). Only
evaluated on lines known to contain the label. -/
def labelSplit (lab : List Char) (line : List Char) : List Char :=
  upToFirst lab ((afterFirst lab line).getD [])

/-- Which of the three selector lists the parser is currently filling. -/
inductive SelTag
  | containers
  | content
  | ratings
deriving DecidableEq, Repr

/-- Parser state of the selector-reply parse loop: the active list tag
plus the three accumulated selector lists. -/
structure SelState where
  cur : Option SelTag
  containers : List String
  content : List String
  ratings : List String
deriving Repr

/-- Extension of the active list with newly found selectors. -/
def addSelectors (st : SelState) (t : SelTag) (xs : List String) : SelState :=
  match t with
  | SelTag.containers => { st with cur := some t, containers := st.containers ++ xs }
  | SelTag.content => { st with cur := some t, content := st.content ++ xs }
  | SelTag.ratings => { st with cur := some t, ratings := st.ratings ++ xs }

/-- One line of the selector-reply parse loop shared verbatim by
get_dynamic_selectors (src/app.py) and grab_reviews (src/main.py): a
CONTAINERS:/CONTENT:/RATINGS: label switches the active list and cuts
the line at the label; then, whenever a list is active, the quoted
substrings of the (possibly cut) line extend it. -/
def stepLine (st : SelState) (line : List Char) : SelState :=
  let labC := ('C' :: 'O' :: 'N' :: 'T' :: 'A' :: 'I' :: 'N' :: 'E' :: 'R' :: 'S' :: ':' :: [])
  let labT := ('C' :: 'O' :: 'N' :: 'T' :: 'E' :: 'N' :: 'T' :: ':' :: [])
  let labR := ('R' :: 'A' :: 'T' :: 'I' :: 'N' :: 'G' :: 'S' :: ':' :: [])
  let next :=
    if containsSub labC line then (some SelTag.containers, labelSplit labC line)
    else if containsSub labT line then (some SelTag.content, labelSplit labT line)
    else if containsSub labR line then (some SelTag.ratings, labelSplit labR line)
    else (st.cur, line)
  match next.1 with
  | none => st
  | some t => addSelectors st t (findQuoted next.2)

/-- Parse of the whole language-model reply into the three selector
lists, line by line over the newline split. -/
def parseSelectors (result : String) : List String × List String × List String :=
  let final := (splitChar '\n' result.data).foldl stepLine
    { cur := none, containers := [], content := [], ratings := [] }
  (final.containers, final.content, final.ratings)

/-- Selector Discovery get_dynamic_selectors of src/app.py: the language
model call and the parse sit in one try block; the reply is an Except
value (error = the model call raised), and any failure yields three
empty lists. -/
def get_dynamic_selectors : Except String String → List String × List String × List String
  | .error _ => ([], [], [])
  | .ok result => parseSelectors result

/-- Worker for pyWords, carrying the current word reversed. -/
def pyWordsAux : List Char → List Char → List (List Char)
  | acc, [] => if acc.isEmpty then [] else [acc.reverse]
  | acc, c :: cs =>
    if isWS c then
      if acc.isEmpty then pyWordsAux [] cs else acc.reverse :: pyWordsAux [] cs
    else pyWordsAux (c :: acc) cs

/-- Python str.split() with no argument: maximal non-whitespace runs,
leading, trailing and repeated whitespace ignored. -/
def pyWords (l : List Char) : List (List Char) :=
  pyWordsAux [] l

/-- The rating post-pass of the Python cleanup loops (grab_reviews in
src/main.py, extract_reviews_traditional in src/app.py): a present
rating is kept only when it lies in [0, 5], and is nulled otherwise. -/
def clampRating : Option ℚ → Option ℚ
  | none => none
  | some q => if 0 ≤ q ∧ q ≤ 5 then some q else none

/-- The Python cleanup loop run on the heuristic page-script output
(src/main.py lines 437-447, src/app.py lines 526-536): keep a review
only when its body is non-empty and has at least 3 whitespace-separated
tokens, and null its rating when out of [0, 5]. -/
def cleanedFilter : List Review → List Review
  | [] => []
  | r :: rs =>
    if r.body.data.isEmpty then cleanedFilter rs
    else if decide (3 ≤ (pyWords r.body.data).length) then
      { r with rating := clampRating r.rating } :: cleanedFilter rs
    else cleanedFilter rs

/-- First character the JavaScript regex ([1-5]([.,]\d)?) can start a
match at. -/
def ratingDigit (c : Char) : Bool :=
  '1' ≤ c && c ≤ '5'

/-- Value of a match of ([1-5]([.,]\d)?) starting at c, after
parseFloat: a decimal point contributes the tenth digit, while a comma
is where parseFloat stops reading, so only the integer part remains. -/
def jsRatingVal (c : Char) (cs : List Char) : ℚ :=
  let d : ℚ := ((c.toNat - '0'.toNat : ℕ) : ℚ)
  match cs with
  | s :: d2 :: _ =>
    if (s = '.' || s = ',') && d2.isDigit then
      if s = '.' then d + ((d2.toNat - '0'.toNat : ℕ) : ℚ) / 10 else d
    else d
  | _ => d

/-- parseFloat of the first match of ([1-5]([.,]\d)?) in a rating
element's text, as used by the LLM-guided page scripts of both files;
none when the text contains no digit 1-5. -/
def jsRatingScan : List Char → Option ℚ
  | [] => none
  | c :: cs =>
    if ratingDigit c then some (jsRatingVal c cs) else jsRatingScan cs

/-- A DOM container matched by an LLM-discovered container selector.
CSS matching is a browser capability, so the two query results the
LLM-guided page script of src/main.py reads from a container are carried
as oracle functions: box.querySelector(sel)?.textContent for the content
and the rating selector families. -/
structure Box where
  contentFor : String → Option String
  ratingFor : String → Option String

/-- The rating loop of the LLM-guided page script of src/main.py: first
rating selector whose element text matches ([1-5]([.,]\d)?) wins. -/
def aiStars (box : Box) : List String → Option ℚ
  | [] => none
  | rsel :: rsels =>
    match box.ratingFor rsel with
    | none => aiStars box rsels
    | some rt =>
      match jsRatingScan rt.data with
      | some q => some q
      | none => aiStars box rsels

/-- The content-selector loop the LLM-guided page script of src/main.py
runs inside one container box: every content selector that yields a
trimmed text of at least 10 characters not seen before pushes one review
(title "Review", reviewer "Anonymous"); note there is no break, so one
box can contribute several reviews. State is (found, seen). -/
def aiContentLoop (box : Box) (ratingSels : List String) :
    List String → List Review × List String → List Review × List String
  | [], st => st
  | csel :: csels, (found, seen) =>
    match box.contentFor csel with
    | none => aiContentLoop box ratingSels csels (found, seen)
    | some raw =>
      let text : String := ⟨trimWS raw.data⟩
      if text.data.isEmpty || decide (text.data.length < 10) || seen.contains text then
        aiContentLoop box ratingSels csels (found, seen)
      else
        aiContentLoop box ratingSels csels
          (found ++ [{ title := "Review", body := text,
                       rating := aiStars box ratingSels, reviewer := "Anonymous" }],
           text :: seen)

/-- The per-container-selector box loop of the same script. -/
def aiBoxesLoop (ratingSels contentSels : List String) :
    List Box → List Review × List String → List Review × List String
  | [], st => st
  | b :: bs, st =>
    aiBoxesLoop ratingSels contentSels bs (aiContentLoop b ratingSels contentSels st)

/-- The LLM-guided extraction page script of src/main.py (grab_reviews):
for each discovered container selector query all boxes (the dom oracle
stands for document.querySelectorAll) and run the content loop; the seen
set persists across container selectors. -/
def aiExtract (dom : String → List Box) (containers contentSels ratingSels : List String) :
    List Review :=
  (containers.foldl (fun st csel => aiBoxesLoop ratingSels contentSels (dom csel) st)
    ([], [])).1

/-- grab_reviews of src/main.py after the heuristic page script: the
heuristic raw batch is cleaned by the Python cleanup loop, then the
OpenAI call runs WITHOUT a try block, so a failed reply (error case)
propagates and the heuristic results are lost; on success the reply is
parsed, the LLM-guided script runs, and the two batches are combined
with the shared progressive body dedup. -/
def grab_reviews (heuristicRaw : List Review) (llmReply : Except String String)
    (dom : String → List Box) : Except String (List Review) :=
  let cleaned := cleanedFilter heuristicRaw
  match llmReply with
  | .error e => .error e
  | .ok result =>
    let p := parseSelectors result
    let ai := aiExtract dom p.1 p.2.1 p.2.2
    let t := dedupAppend [] [] cleaned
    .ok (dedupAppend t.2 t.1 ai).1

/-- The while loop of scrape_site (src/main.py lines 578-618). The
browser is abstracted to the ordered list of per-page extraction
outcomes: the head is what grab_reviews yields on the page currently
loaded (error = the unguarded call inside it raised), and
handle_pagination succeeds exactly when a further page outcome exists.
Loop body, in source order: stop when the collected count reaches
max_count or the page counter passes 50; an empty batch stops; novel
reviews (body not among collected bodies) are appended in full; no
growth stops; when still under max_count, a failed pagination stops,
otherwise the page counter increments. -/
def loopE (maxCount : Nat) :
    List (Except String (List Review)) → Nat → List Review → Nat →
    Except String (List Review × Nat)
  | pages, currPage, acc, succ =>
    if acc.length < maxCount ∧ currPage ≤ 50 then
      match pages with
      | [] => .ok (acc, succ)
      | batchE :: rest =>
        match batchE with
        | .error e => .error e
        | .ok batch =>
          if batch.isEmpty then .ok (acc, succ)
          else
            let novel := batch.filter fun r => !((bodies acc).contains r.body)
            let acc2 := acc ++ novel
            if acc.length < acc2.length then
              if acc2.length < maxCount then
                match rest with
                | [] => .ok (acc2, succ + 1)
                | _ :: _ => loopE maxCount rest (currPage + 1) acc2 (succ + 1)
              else .ok (acc2, succ + 1)
            else .ok (acc, succ)
    else .ok (acc, succ)

/-- Observable browser-lifecycle events of one scrape_site run. -/
inductive Ev
  | launch
  | navigate
  | closeContext
  | closeBrowser
deriving DecidableEq, Repr

/-- Environment of one scrape_site run: whether the initial page.goto
raises, and the per-page extraction outcomes. -/
structure HarvestEnv where
  navFail : Option String
  pages : List (Except String (List Review))

/-- Semantics of the Python try/finally of scrape_site for terminating
bodies: the finally events run after the body's events whether the body
returned a value or an exception, and the body's outcome is then
returned or re-raised unchanged. -/
def tryFinallyTrace {α : Type} (body : Except String α × List Ev) (finEvs : List Ev) :
    Except String α × List Ev :=
  (body.1, body.2 ++ finEvs)

/-- scrape_site of src/main.py (lines 559-629): launch browser and
context, navigate (a navigation failure raises out of the try), run the
harvest loop from page 1 with an empty collection, and close the context
and then the browser in the finally block. -/
def scrape_site (env : HarvestEnv) (maxCount : Nat) :
    Except String (List Review × Nat) × List Ev :=
  tryFinallyTrace
    (match env.navFail with
     | some e => (.error e, [Ev.launch, Ev.navigate])
     | none => (loopE maxCount env.pages 1 [] 0, [Ev.launch, Ev.navigate]))
    [Ev.closeContext, Ev.closeBrowser]

/-- One page step of the harvest, used to state claims C2 and C3: the
whole novel part of the batch (bodies not yet collected) is appended. -/
def novelStep (acc : List Review) (batch : List Review) : List Review :=
  acc ++ batch.filter fun r => !((bodies acc).contains r.body)

/-- Collection obtained by visiting a sequence of page batches in order,
appending each batch's novel part in full. -/
def harvestAcc (pages : List (List Review)) : List Review :=
  pages.foldl novelStep []

/-- Outcome of one click-selector attempt inside handle_pagination:
selector not found in time, found but not visible, an exception during
the interaction, or a completed click after which the URL or HTML either
changed or did not. -/
inductive ClickOutcome
  | notFound
  | notVisible
  | raised
  | clicked (changed : Bool)
deriving DecidableEq, Repr

/-- The click-selector loop of handle_pagination (both files): walk the
fixed selector list; only a completed click that changed the URL or the
HTML returns success, every other outcome falls through to the next
selector. -/
def clickPhase : List ClickOutcome → Bool
  | [] => false
  | ClickOutcome.clicked true :: _ => true
  | _ :: os => clickPhase os

/-- Outcome of page.goto on the rewritten URL: an exception, a None
response, or a response whose ok() is the given boolean. -/
inductive NavOutcome
  | raised
  | noResponse
  | response (ok : Bool)
deriving DecidableEq, Repr

/-- Environment of one handle_pagination call: the click outcomes of the
fixed selector list in order, and the navigation oracle. -/
structure PagEnv where
  clicks : List ClickOutcome
  navigate : String → NavOutcome

/-- Worker for subPageAll with explicit fuel (the list length at the
outer call, an upper bound on the number of scanning steps); at every
occurrence of the literal characters page= followed by at least one
digit, the digit run is replaced by the digits of n. -/
def subPageGo (n : Nat) : Nat → List Char → List Char
  | 0, l => l
  | _ + 1, [] => []
  | f + 1, 'p' :: 'a' :: 'g' :: 'e' :: '=' :: rest =>
    if (rest.headD ' ').isDigit then
      'p' :: 'a' :: 'g' :: 'e' :: '=' ::
        ((toString n).data ++ subPageGo n f (rest.dropWhile Char.isDigit))
    else 'p' :: subPageGo n f ('a' :: 'g' :: 'e' :: '=' :: rest)
  | f + 1, c :: cs => c :: subPageGo n f cs

/-- Python re.sub applied to the regex matching page= followed by a
digit run, replacing every occurrence with page=n. -/
def subPageAll (n : Nat) (l : List Char) : List Char :=
  subPageGo n l.length l

/-- The URL-rewriting fallback expression of handle_pagination (both
files): when the URL contains the substring page=, re.sub rewrites the
digit runs of page= parameters to currPage+1; otherwise page=currPage+1
is appended after & when a query string exists and after ? when not. -/
def rewriteUrl (currentUrl : String) (currPage : Nat) : String :=
  if containsSub ('p' :: 'a' :: 'g' :: 'e' :: '=' :: []) currentUrl.data then
    ⟨subPageAll (currPage + 1) currentUrl.data⟩
  else
    let sep := if containsSub ('?' :: []) currentUrl.data then "&" else "?"
    currentUrl ++ sep ++ "page=" ++ toString (currPage + 1)

/-- handle_pagination of src/main.py (lines 176-249) and src/app.py
(lines 167-255): the click loop first; if no click produced a change,
navigate to the rewritten URL and succeed exactly on an OK response; a
raised navigation, a None response or a not-OK response all yield
false. -/
def handle_pagination (env : PagEnv) (url : String) (currPage : Nat) : Bool :=
  if clickPhase env.clicks then true
  else
    match env.navigate (rewriteUrl url currPage) with
    | NavOutcome.response true => true
    | _ => false

/-- A document element as the heuristic extractor sees it. Whether one
of the fixed review-container selectors matches the element is a browser
capability (CSS matching) and is carried as the oracle field
matchesFixed; text content, class, id and child count are the fields the
fallback filter of src/app.py reads directly. -/
structure Elem where
  textContent : String
  className : String
  idAttr : String
  childCount : Nat
  matchesFixed : Bool
deriving DecidableEq, Repr

/-- Test of the call-to-action regex ^(write|see|read|view)\s+reviews?$
on an already lowercased text: after the verb, at least one whitespace
character, then exactly review or reviews to the end. -/
def ctaAfterVerb : List Char → Bool
  | [] => false
  | c :: cs =>
    isWS c &&
      (((c :: cs).dropWhile isWS) == ('r' :: 'e' :: 'v' :: 'i' :: 'e' :: 'w' :: []) ||
       ((c :: cs).dropWhile isWS) == ('r' :: 'e' :: 'v' :: 'i' :: 'e' :: 'w' :: 's' :: []))

/-- Full-match test of the call-to-action regex on lowercased text. -/
def ctaMatch (t : List Char) : Bool :=
  [('w' :: 'r' :: 'i' :: 't' :: 'e' :: []),
   ('s' :: 'e' :: 'e' :: []),
   ('r' :: 'e' :: 'a' :: 'd' :: []),
   ('v' :: 'i' :: 'e' :: 'w' :: [])].any fun v =>
    v.isPrefixOf t && ctaAfterVerb (t.drop v.length)

/-- The fallback element filter of src/app.py lines 438-445: lowercased
text, class or id contains review, the element has at least one child,
and the text is not a pure call-to-action phrase. -/
def fallbackPred (e : Elem) : Bool :=
  let text := e.textContent.data.map Char.toLower
  let classesL := e.className.data.map Char.toLower
  let idL := e.idAttr.data.map Char.toLower
  (containsSub ('r' :: 'e' :: 'v' :: 'i' :: 'e' :: 'w' :: []) text ||
   containsSub ('r' :: 'e' :: 'v' :: 'i' :: 'e' :: 'w' :: []) classesL ||
   containsSub ('r' :: 'e' :: 'v' :: 'i' :: 'e' :: 'w' :: []) idL) &&
    decide (0 < e.childCount) && !(ctaMatch text)

/-- Candidate containers of extract_reviews_traditional (src/app.py
lines 435-446): the elements matching the fixed selector library, and,
when there are none, the fallback scan over all elements. -/
def reviewElements (doc : List Elem) : List Elem :=
  let fixed := doc.filter Elem.matchesFixed
  if fixed.isEmpty then doc.filter fallbackPred else fixed

/-- Candidate containers of the heuristic page script of grab_reviews
(src/main.py lines 356-358): only the fixed selector library, with no
fallback scan of any kind. -/
def mainReviewBoxes (doc : List Elem) : List Elem :=
  doc.filter Elem.matchesFixed

/-- The max_count query parameter of the /api/reviews endpoint
(src/main.py lines 631-636), declared Query(10000, ge=10, le=100000):
FastAPI substitutes 10000 for an omitted parameter and rejects an
out-of-range value with a validation error before the handler (and so
before scrape_site) runs. -/
def validate_max_count : Option Int → Except String Int
  | none => .ok 10000
  | some v => if 10 ≤ v ∧ v ≤ 100000 then .ok v else .error "validation error"

/-- No two adjacent whitespace characters anywhere in the list; a run of
two or more whitespace characters exists exactly when this fails. -/
def noAdjWS : List Char → Bool
  | [] => true
  | [_] => true
  | a :: b :: rest => !(isWS a && isWS b) && noAdjWS (b :: rest)

/-- Every whitespace character of the list is a plain space. -/
def wsOnlySpace (l : List Char) : Prop :=
  ∀ c ∈ l, isWS c = true → c = ' '

/-- All words except possibly the final one are non-empty. -/
def okTail : List (List Char) → Prop
  | [] => True
  | [_] => True
  | w :: ws => w ≠ [] ∧ okTail ws

/-- A review with the given body and the constant fields the LLM-guided
path uses; concrete inputs for witnesses are built from it. -/
def sampleReview (b : String) : Review :=
  { title := "Review", body := b, rating := none, reviewer := "Anonymous" }

/-- Concrete DOM container for the LLM-guided page script: the content
selector p.body yields an 11-character one-token text and the rating
selector span.rate yields a text whose first regex match is 5.9. -/
def demoBox : Box :=
  { contentFor := fun s => if s = "p.body" then some "excellent!!" else none,
    ratingFor := fun s => if s = "span.rate" then some "5.9 out of 5" else none }

/-- Concrete DOM oracle: only the container selector div.rev matches,
yielding demoBox. -/
def demoDom : String → List Box :=
  fun s => if s = "div.rev" then [demoBox] else []

/-- A language-model reply parsing to the selectors of demoDom. -/
def demoReply : String :=
  "CONTAINERS: ['div.rev']\nCONTENT: ['p.body']\nRATINGS: ['span.rate']"

/-- The page batch grab_reviews of src/main.py produces in the demo
environment with no heuristic candidates. -/
def demoGrabbed : Except String (List Review) :=
  grab_reviews [] (.ok demoReply) demoDom

/-- Concrete element for the fallback-scan claims: its text contains
review, it has one child, no fixed selector matches it, and its text is
not a call-to-action phrase. -/
def demoFallbackElem : Elem :=
  { textContent := "This review is great", className := "", idAttr := "",
    childCount := 1, matchesFixed := false }

/-- Concrete navigation oracle: only the rewritten page=3 URL answers
with an OK response. -/
def demoNavigate : String → NavOutcome :=
  fun u => if u = "https://shop.example/items?page=3" then NavOutcome.response true
           else NavOutcome.raised

/-- Concrete pagination environment in which every click strategy fails
(selector missing, click without change, exception). -/
def demoPagEnv : PagEnv :=
  { clicks := [ClickOutcome.notFound, ClickOutcome.clicked false, ClickOutcome.raised],
    navigate := demoNavigate }

/-- C3: a visited page whose batch holds zero novel reviews (empty, or
every body already collected) makes the harvest loop return the reviews
collected so far at once, whatever max_count, the 50-page cap and the
remaining pages; pagination is not attempted after such a page. -/
theorem zero_novel_stops (maxCount : Nat) (batch : List Review)
    (rest : List (Except String (List Review))) (currPage : Nat) (acc : List Review) (succ : Nat)
    (h : batch.filter (fun r => !((bodies acc).contains r.body)) = []) :
    loopE maxCount (.ok batch :: rest) currPage acc succ = .ok (acc, succ) := by
  unfold loopE
  split
  · cases hb : batch with
    | nil => simp
    | cons b bs =>
      rw [hb] at h
      simp only [h]
      simp
  · rfl

/-- Witness for C3: one already-collected review arrives again on the
current page while max_count is 100 and a further page is available; the
loop still returns just the collected review. -/
theorem zero_novel_stops_witness :
    List.filter (fun r => !((bodies [sampleReview "a"]).contains r.body)) [sampleReview "a"] = [] ∧
    loopE 100 [.ok [sampleReview "a"], .ok [sampleReview "zz"]] 1 [sampleReview "a"] 0 =
      .ok ([sampleReview "a"], 0) :=
  ⟨by decide,
   zero_novel_stops 100 [sampleReview "a"] [.ok [sampleReview "zz"]] 1 [sampleReview "a"] 0
     (by decide)⟩

/-- C4 (amended): in src/app.py a failed language-model call makes
get_dynamic_selectors return three empty lists and
combine_extraction_methods still returns the heuristic output; in
src/main.py the model call inside grab_reviews is unguarded, so the
failure propagates to the caller and the heuristic output is lost. -/
theorem llm_failure_soft_in_app_fatal_in_main :
    (∀ e, get_dynamic_selectors (.error e) = ([], [], [])) ∧
    (∀ trad e, combine_extraction_methods trad (.error e) = (dedupAppend [] [] trad).1) ∧
    (∀ raw dom e, grab_reviews raw (.error e) dom = .error e) :=
  ⟨fun _ => rfl, fun _ _ => rfl, fun _ _ _ => rfl⟩

/-- Counterexample to C4 as stated: a failing model call during the
extraction step of src/main.py propagates the error out of grab_reviews
instead of returning the heuristic reviews (here one valid heuristic
review that the cleanup filter keeps). -/
theorem llm_failure_propagates_cex :
    grab_reviews [sampleReview "great product overall"] (.error "APIConnectionError") demoDom
      = .error "APIConnectionError" ∧
    cleanedFilter [sampleReview "great product overall"] = [sampleReview "great product overall"] ∧
    grab_reviews [sampleReview "great product overall"] (.error "APIConnectionError") demoDom
      ≠ .ok [sampleReview "great product overall"] :=
  ⟨rfl, by decide, fun h => Except.noConfusion h⟩

/-- C5: when every click strategy fails, handle_pagination navigates to
the rewritten URL and succeeds exactly on an OK response; a URL with no
page= parameter gets ?page=N+1 or &page=N+1 appended depending on the
presence of a query string, and the spec example page=2 is rewritten to
page=3. -/
theorem pagination_url_fallback (env : PagEnv) (url : String) (currPage : Nat)
    (h : clickPhase env.clicks = false) :
    (handle_pagination env url currPage = true ↔
      env.navigate (rewriteUrl url currPage) = NavOutcome.response true) ∧
    (containsSub ('p' :: 'a' :: 'g' :: 'e' :: '=' :: []) url.data = false →
      rewriteUrl url currPage =
        url ++ (if containsSub ('?' :: []) url.data then "&" else "?") ++
          "page=" ++ toString (currPage + 1)) ∧
    rewriteUrl "https://shop.example/items?page=2" 2 = "https://shop.example/items?page=3" := by
  refine ⟨?_, ?_, by decide⟩
  · simp only [handle_pagination, h, Bool.false_eq_true, if_false]
    cases hn : env.navigate (rewriteUrl url currPage) with
    | raised => simp
    | noResponse => simp
    | response ok => cases ok <;> simp
  · intro hc
    simp only [rewriteUrl, hc, Bool.false_eq_true, if_false]

/-- Witness for C5: in the demo environment every click fails, and the
conclusion holds at the spec example URL. -/
theorem pagination_url_fallback_witness :
    clickPhase demoPagEnv.clicks = false ∧
    ((handle_pagination demoPagEnv "https://shop.example/items?page=2" 2 = true ↔
      demoPagEnv.navigate (rewriteUrl "https://shop.example/items?page=2" 2) =
        NavOutcome.response true) ∧
     (containsSub ('p' :: 'a' :: 'g' :: 'e' :: '=' :: [])
        "https://shop.example/items?page=2".data = false →
      rewriteUrl "https://shop.example/items?page=2" 2 =
        "https://shop.example/items?page=2" ++
          (if containsSub ('?' :: []) "https://shop.example/items?page=2".data then "&" else "?") ++
          "page=" ++ toString (2 + 1)) ∧
     rewriteUrl "https://shop.example/items?page=2" 2 = "https://shop.example/items?page=3") :=
  ⟨by decide, pagination_url_fallback demoPagEnv "https://shop.example/items?page=2" 2 (by decide)⟩

/-- C7 (amended): on a document where no fixed review-container selector
matches, extract_reviews_traditional of src/app.py builds its candidates
from the fallback scan (text/class/id containing review, at least one
child, no pure call-to-action text), while the heuristic page script of
src/main.py has no fallback and is left with no candidates at all. -/
theorem fallback_scan_in_app_absent_in_main (doc : List Elem)
    (h : ∀ e ∈ doc, e.matchesFixed = false) :
    reviewElements doc = doc.filter fallbackPred ∧ mainReviewBoxes doc = [] := by
  have hf : doc.filter Elem.matchesFixed = [] := by
    rw [List.filter_eq_nil_iff]
    intro e he
    simp [h e he]
  constructor
  · simp [reviewElements, hf]
  · simp [mainReviewBoxes, hf]

/-- Witness for C7: a one-element document whose element matches no
fixed selector. -/
theorem fallback_scan_witness :
    (∀ e ∈ [demoFallbackElem], e.matchesFixed = false) ∧
    (reviewElements [demoFallbackElem] = List.filter fallbackPred [demoFallbackElem] ∧
     mainReviewBoxes [demoFallbackElem] = []) :=
  ⟨by decide, fallback_scan_in_app_absent_in_main [demoFallbackElem] (by decide)⟩

/-- Counterexample to C7 as stated: a fallback-eligible element (text
contains review, one child, not a call-to-action) on a document with no
fixed-selector match is scanned by the src/app.py extractor but the
src/main.py heuristic pass builds its candidates from no elements. -/
theorem main_no_fallback_cex :
    demoFallbackElem.matchesFixed = false ∧
    fallbackPred demoFallbackElem = true ∧
    reviewElements [demoFallbackElem] = [demoFallbackElem] ∧
    mainReviewBoxes [demoFallbackElem] = [] := by decide

/-- C9: every scrape_site run ends its browser-event trace with the
context close followed by the browser close, whether the body returned
normally or raised (the finally block), and an initial navigation
failure is re-raised after the closes. -/
theorem browser_always_closed (env : HarvestEnv) (maxCount : Nat) :
    (∃ pre, (scrape_site env maxCount).2 = pre ++ [Ev.closeContext, Ev.closeBrowser]) ∧
    (∀ e, env.navFail = some e → (scrape_site env maxCount).1 = .error e) := by
  constructor
  · cases h : env.navFail <;>
      exact ⟨[Ev.launch, Ev.navigate], by simp [scrape_site, tryFinallyTrace, h]⟩
  · intro e he
    simp [scrape_site, tryFinallyTrace, he]

/-- Witness for C9: a run whose initial navigation raises still closes
the context and the browser before the error propagates. -/
theorem browser_always_closed_witness :
    (∃ pre, (scrape_site ⟨some "goto timeout", []⟩ 5).2 =
      pre ++ [Ev.closeContext, Ev.closeBrowser]) ∧
    (scrape_site ⟨some "goto timeout", []⟩ 5).1 = .error "goto timeout" :=
  ⟨(browser_always_closed ⟨some "goto timeout", []⟩ 5).1,
   (browser_always_closed ⟨some "goto timeout", []⟩ 5).2 "goto timeout" rfl⟩

/-- C10: the declared validation of the /api/reviews max_count query
parameter defaults an omitted value to 10000, accepts exactly the values
of [10, 100000], rejects everything outside with a validation error
before the scraper runs, and any value the scraper is invoked with lies
in [10, 100000]. -/
theorem max_count_validated :
    validate_max_count none = .ok 10000 ∧
    (∀ v : Int, 10 ≤ v → v ≤ 100000 → validate_max_count (some v) = .ok v) ∧
    (∀ v : Int, v < 10 ∨ 100000 < v → validate_max_count (some v) = .error "validation error") ∧
    (∀ raw mc, validate_max_count raw = .ok mc → 10 ≤ mc ∧ mc ≤ 100000) := by
  refine ⟨rfl, ?_, ?_, ?_⟩
  · intro v h1 h2
    simp [validate_max_count, h1, h2]
  · intro v hv
    have hn : ¬(10 ≤ v ∧ v ≤ 100000) := by omega
    simp [validate_max_count, hn]
  · intro raw mc h
    cases raw with
    | none =>
      simp only [validate_max_count] at h
      injection h with h
      omega
    | some v =>
      simp only [validate_max_count] at h
      by_cases hr : 10 ≤ v ∧ v ≤ 100000
      · rw [if_pos hr] at h
        injection h with h
        omega
      · rw [if_neg hr] at h
        exact Except.noConfusion h

/-- Witness for C10: 500 is accepted unchanged and satisfies the bound,
5 is rejected. -/
theorem max_count_validated_witness :
    validate_max_count (some 500) = .ok 500 ∧
    validate_max_count (some 5) = .error "validation error" ∧
    (10 ≤ (500 : Int) ∧ (500 : Int) ≤ 100000) :=
  ⟨max_count_validated.2.1 500 (by decide) (by decide),
   max_count_validated.2.2.1 5 (Or.inl (by decide)),
   max_count_validated.2.2.2 (some 500) 500
     (max_count_validated.2.1 500 (by decide) (by decide))⟩

/-- The kept part of a dedup loop is the accumulator extended by the
progressive novel filter. -/
theorem dedupAppend_fst : ∀ (l : List Review) (seen : List String) (acc : List Review),
    (dedupAppend seen acc l).1 = acc ++ novelFilter seen l := by
  intro l
  induction l with
  | nil => intro seen acc; simp [dedupAppend, novelFilter]
  | cons r rs ih =>
    intro seen acc
    by_cases h : r.body ∈ seen
    · simp [dedupAppend, novelFilter, h, ih]
    · simp [dedupAppend, novelFilter, h, ih]

/-- The seen set after a dedup loop is the reversed list of kept bodies
on top of the incoming seen set. -/
theorem dedupAppend_snd : ∀ (l : List Review) (seen : List String) (acc : List Review),
    (dedupAppend seen acc l).2 = (bodies (novelFilter seen l)).reverse ++ seen := by
  intro l
  induction l with
  | nil => intro seen acc; simp [dedupAppend, novelFilter, bodies]
  | cons r rs ih =>
    intro seen acc
    by_cases h : r.body ∈ seen
    · simp [dedupAppend, novelFilter, h, ih, bodies]
    · simp [dedupAppend, novelFilter, h, ih, bodies]

/-- The novel filter only looks at membership of the seen set. -/
theorem novelFilter_congr : ∀ (l : List Review) (s₁ s₂ : List String),
    (∀ b, b ∈ s₁ ↔ b ∈ s₂) → novelFilter s₁ l = novelFilter s₂ l := by
  intro l
  induction l with
  | nil => intro s₁ s₂ _; rfl
  | cons r rs ih =>
    intro s₁ s₂ hc
    by_cases h : r.body ∈ s₂
    · have h1 : r.body ∈ s₁ := (hc r.body).mpr h
      simp only [novelFilter]
      rw [if_pos (by simpa using h1), if_pos (by simpa using h)]
      exact ih s₁ s₂ hc
    · have h1 : r.body ∉ s₁ := fun hx => h ((hc r.body).mp hx)
      simp only [novelFilter]
      rw [if_neg (by simpa using h1), if_neg (by simpa using h)]
      rw [ih (r.body :: s₁) (r.body :: s₂) (fun b => by simp [hc b])]

/-- No kept body was in the seen set the filter started from. -/
theorem novelFilter_not_seen : ∀ (l : List Review) (seen : List String) (b : String),
    b ∈ bodies (novelFilter seen l) → b ∉ seen := by
  intro l
  induction l with
  | nil => intro seen b hb; simp [novelFilter, bodies] at hb
  | cons r rs ih =>
    intro seen b hb
    by_cases h : r.body ∈ seen
    · rw [novelFilter, if_pos (by simpa using h)] at hb
      exact ih seen b hb
    · rw [novelFilter, if_neg (by simpa using h)] at hb
      simp only [bodies, List.map_cons, List.mem_cons] at hb
      rcases hb with hb | hb
      · rw [hb]; exact h
      · have := ih (r.body :: seen) b hb
        intro hx
        exact this (List.mem_cons_of_mem _ hx)

/-- Kept bodies are pairwise distinct. -/
theorem novelFilter_nodup : ∀ (l : List Review) (seen : List String),
    (bodies (novelFilter seen l)).Nodup := by
  intro l
  induction l with
  | nil => intro seen; simp [novelFilter, bodies]
  | cons r rs ih =>
    intro seen
    by_cases h : r.body ∈ seen
    · rw [novelFilter, if_pos (by simpa using h)]
      exact ih seen
    · rw [novelFilter, if_neg (by simpa using h)]
      simp only [bodies, List.map_cons, List.nodup_cons]
      refine ⟨fun hmem => ?_, ih (r.body :: seen)⟩
      exact novelFilter_not_seen rs (r.body :: seen) r.body hmem (List.mem_cons_self _ _)

/-- On input with pairwise-distinct bodies none of which is seen, the
filter keeps everything; this is the state of the heuristic batch, whose
page script already deduplicated bodies. -/
theorem novelFilter_of_nodup : ∀ (l : List Review) (seen : List String),
    (bodies l).Nodup → (∀ r ∈ l, r.body ∉ seen) → novelFilter seen l = l := by
  intro l
  induction l with
  | nil => intro seen _ _; rfl
  | cons r rs ih =>
    intro seen hnd hs
    rw [novelFilter, if_neg (by simpa using hs r (List.mem_cons_self _ _))]
    congr 1
    simp only [bodies, List.map_cons, List.nodup_cons] at hnd
    refine ih (r.body :: seen) hnd.2 ?_
    intro r' hr' hmem
    rcases List.mem_cons.mp hmem with he | he
    · exact hnd.1 (he ▸ List.mem_map_of_mem Review.body hr')
    · exact hs r' (List.mem_cons_of_mem _ hr') he

/-- C1: for a heuristic batch with pairwise-distinct bodies (which the
heuristic page script guarantees via its seen set), the combiner returns
the heuristic reviews first in discovery order, followed by exactly the
LLM-guided reviews whose body equals no earlier output body; the result
has pairwise-distinct bodies, and the spec example [A,B] + [B,C] gives
[A,B,C], each once. -/
theorem combiner_dedup_order (trad llm : List Review) (h : (bodies trad).Nodup) :
    combine_extraction_methods trad (.ok llm) = trad ++ novelFilter (bodies trad) llm ∧
    (bodies (combine_extraction_methods trad (.ok llm))).Nodup ∧
    combine_extraction_methods [sampleReview "A", sampleReview "B"]
        (.ok [sampleReview "B", sampleReview "C"]) =
      [sampleReview "A", sampleReview "B", sampleReview "C"] := by
  have htrad : novelFilter [] trad = trad :=
    novelFilter_of_nodup trad [] h (by simp)
  have hmain : combine_extraction_methods trad (.ok llm) =
      trad ++ novelFilter (bodies trad) llm := by
    show (dedupAppend (dedupAppend [] [] trad).2 (dedupAppend [] [] trad).1 llm).1 = _
    rw [dedupAppend_fst, dedupAppend_snd, dedupAppend_fst, htrad]
    simp only [List.append_nil, List.nil_append]
    rw [novelFilter_congr llm ((bodies trad).reverse) (bodies trad)
      (fun b => List.mem_reverse)]
  refine ⟨hmain, ?_, by decide⟩
  rw [hmain]
  simp only [bodies, List.map_append]
  rw [List.nodup_append]
  refine ⟨h, novelFilter_nodup llm (bodies trad), ?_⟩
  intro b hb hb2
  exact novelFilter_not_seen llm (bodies trad) b hb2 hb

/-- Witness for C1 at the spec example batches. -/
theorem combiner_dedup_order_witness :
    (bodies [sampleReview "A", sampleReview "B"]).Nodup ∧
    (combine_extraction_methods [sampleReview "A", sampleReview "B"]
        (.ok [sampleReview "B", sampleReview "C"]) =
      [sampleReview "A", sampleReview "B"] ++
        novelFilter (bodies [sampleReview "A", sampleReview "B"])
          [sampleReview "B", sampleReview "C"] ∧
     (bodies (combine_extraction_methods [sampleReview "A", sampleReview "B"]
        (.ok [sampleReview "B", sampleReview "C"]))).Nodup ∧
     combine_extraction_methods [sampleReview "A", sampleReview "B"]
        (.ok [sampleReview "B", sampleReview "C"]) =
      [sampleReview "A", sampleReview "B", sampleReview "C"]) :=
  ⟨by decide,
   combiner_dedup_order [sampleReview "A", sampleReview "B"]
     [sampleReview "B", sampleReview "C"] (by decide)⟩

/-- The harvest loop with no current page returns the collection. -/
theorem loopE_nil (mc cp : Nat) (acc : List Review) (s0 : Nat) :
    loopE mc [] cp acc s0 = .ok (acc, s0) := by
  unfold loopE
  split <;> rfl

/-- One-step unfolding of the harvest loop on a successful batch. -/
theorem loopE_cons (mc : Nat) (batch : List Review) (rest : List (Except String (List Review)))
    (cp : Nat) (acc : List Review) (s0 : Nat) :
    loopE mc (.ok batch :: rest) cp acc s0 =
      if acc.length < mc ∧ cp ≤ 50 then
        if batch.isEmpty then .ok (acc, s0)
        else
          if acc.length < (novelStep acc batch).length then
            if (novelStep acc batch).length < mc then
              match rest with
              | [] => .ok (novelStep acc batch, s0 + 1)
              | _ :: _ => loopE mc rest (cp + 1) (novelStep acc batch) (s0 + 1)
            else .ok (novelStep acc batch, s0 + 1)
          else .ok (acc, s0)
      else .ok (acc, s0) := rfl

/-- Shape of every completed harvest loop: the collection is the full
novel-step fold over some visited prefix of the pages (batches are never
truncated), and when the collection entered a step under the cap it
either ends under the cap or overshoots by less than the length of the
last visited batch. -/
theorem loopE_run (mc : Nat) : ∀ (ps : List (List Review)) (cp : Nat) (acc : List Review) (s0 : Nat),
    ∃ n s, n ≤ ps.length ∧
      loopE mc (ps.map Except.ok) cp acc s0 =
        .ok (List.foldl novelStep acc (ps.take n), s) ∧
      (acc.length < mc →
        ((List.foldl novelStep acc (ps.take n)).length ≤ mc ∨
         ∃ pre b, ps.take n = pre ++ [b] ∧
           (List.foldl novelStep acc (ps.take n)).length < mc + b.length)) := by
  intro ps
  induction ps with
  | nil =>
    intro cp acc s0
    exact ⟨0, s0, Nat.le_refl 0, loopE_nil mc cp acc s0, fun hlt => Or.inl (Nat.le_of_lt hlt)⟩
  | cons p rest ih =>
    intro cp acc s0
    rw [List.map_cons, loopE_cons]
    by_cases hg : acc.length < mc ∧ cp ≤ 50
    · rw [if_pos hg]
      by_cases hp : p.isEmpty
      · rw [if_pos hp]
        exact ⟨0, s0, Nat.zero_le _, rfl, fun hlt => Or.inl (Nat.le_of_lt hlt)⟩
      · rw [if_neg hp]
        by_cases hgrow : acc.length < (novelStep acc p).length
        · rw [if_pos hgrow]
          by_cases hcap : (novelStep acc p).length < mc
          · rw [if_pos hcap]
            cases rest with
            | nil =>
              refine ⟨1, s0 + 1, by simp, ?_, fun _ => Or.inl (Nat.le_of_lt hcap)⟩
              simp [List.take_succ_cons, List.foldl_cons]
            | cons q qs =>
              obtain ⟨n', s', hn', heq, hbound⟩ := ih (cp + 1) (novelStep acc p) (s0 + 1)
              refine ⟨n' + 1, s', by simpa using hn', ?_, ?_⟩
              · rw [List.take_succ_cons, List.foldl_cons]
                exact heq
              · intro _
                rcases hbound hcap with hle | ⟨pre, b, hpb, hlen⟩
                · left
                  rw [List.take_succ_cons, List.foldl_cons]
                  exact hle
                · right
                  refine ⟨p :: pre, b, ?_, ?_⟩
                  · rw [List.take_succ_cons, hpb]
                    rfl
                  · rw [List.take_succ_cons, List.foldl_cons]
                    exact hlen
          · rw [if_neg hcap]
            refine ⟨1, s0 + 1, by simp, ?_, ?_⟩
            · simp [List.take_succ_cons, List.foldl_cons]
            · intro hlt
              right
              refine ⟨[], p, by simp, ?_⟩
              rw [List.take_succ_cons, List.take_zero, List.foldl_cons, List.foldl_nil]
              have hfil : (List.filter (fun r => !((bodies acc).contains r.body)) p).length ≤ p.length :=
                List.length_filter_le _ _
              simp only [novelStep, List.length_append]
              omega
        · rw [if_neg hgrow]
          exact ⟨0, s0, Nat.zero_le _, rfl, fun hlt => Or.inl (Nat.le_of_lt hlt)⟩
    · rw [if_neg hg]
      exact ⟨0, s0, Nat.zero_le _, rfl, fun hlt => Or.inl (Nat.le_of_lt hlt)⟩

/-- C2: every harvest run returns the collection obtained by appending
each visited page's novel batch in full (the fold over a prefix of the
pages), any overshoot past max_count is smaller than the last appended
batch, and the spec scenario max_count=8 with 5 fresh reviews per page
collects exactly the 10 reviews of the first two pages and stops without
visiting page 3. -/
theorem harvest_cap_batch_bound (pages : List (List Review)) (maxCount : Nat) :
    (∃ n s, n ≤ pages.length ∧
      loopE maxCount (pages.map Except.ok) 1 [] 0 = .ok (harvestAcc (pages.take n), s) ∧
      ((harvestAcc (pages.take n)).length ≤ maxCount ∨
       ∃ pre b, pages.take n = pre ++ [b] ∧
         (harvestAcc (pages.take n)).length < maxCount + b.length)) ∧
    loopE 8 ([["a1", "a2", "a3", "a4", "a5"].map sampleReview,
              ["b1", "b2", "b3", "b4", "b5"].map sampleReview,
              ["c1", "c2", "c3", "c4", "c5"].map sampleReview].map Except.ok) 1 [] 0 =
      .ok ((["a1", "a2", "a3", "a4", "a5", "b1", "b2", "b3", "b4", "b5"].map sampleReview), 2) := by
  constructor
  · obtain ⟨n, s, hn, heq, hbound⟩ := loopE_run maxCount pages 1 [] 0
    refine ⟨n, s, hn, heq, ?_⟩
    by_cases hmc : 0 < maxCount
    · exact hbound hmc
    · have h0 : maxCount = 0 := by omega
      subst h0
      have hz : loopE 0 (pages.map Except.ok) 1 [] 0 = .ok ([], 0) := by
        unfold loopE
        rw [if_neg (by simp)]
      rw [heq] at hz
      injection hz with hz
      have hzz : harvestAcc (pages.take n) = [] := congrArg Prod.fst hz
      rw [hzz]
      exact Or.inl (Nat.le_refl 0)
  · rfl

/-- Counterexample to C6 as stated: a harvest run (one page, the demo
LLM environment) returns a review whose rating 5.9 lies outside [0, 5]
and whose body has a single whitespace-separated token; the LLM-guided
path of grab_reviews checks only a 10-character minimum and never
range-checks the regex-derived rating. -/
theorem invalid_review_reaches_harvest_cex :
    (scrape_site ⟨none, [demoGrabbed]⟩ 500).1 =
      .ok ([{ title := "Review", body := "excellent!!",
              rating := aiStars demoBox ["span.rate"], reviewer := "Anonymous" }], 1) ∧
    (∃ q, aiStars demoBox ["span.rate"] = some q ∧ ¬(q ≤ 5)) ∧
    (pyWords "excellent!!".data).length = 1 := by
  have hval : (('5'.toNat - '0'.toNat : ℕ) : ℚ) + (('9'.toNat - '0'.toNat : ℕ) : ℚ) / 10
      = 59 / 10 := by
    have h5 : ('5'.toNat - '0'.toNat : ℕ) = 5 := rfl
    have h9 : ('9'.toNat - '0'.toNat : ℕ) = 9 := rfl
    rw [h5, h9]
    norm_num
  have hstars : aiStars demoBox ["span.rate"] = some ((59 : ℚ) / 10) := by
    rw [← hval]
    rfl
  exact ⟨rfl, ⟨59 / 10, hstars, by norm_num⟩, rfl⟩

/-- The Python post-filter of the heuristic path keeps only reviews with
at least 3 tokens and a null-or-in-range rating. -/
theorem cleanedFilter_inv : ∀ (raw : List Review) (r : Review), r ∈ cleanedFilter raw →
    3 ≤ (pyWords r.body.data).length ∧
    (r.rating = none ∨ ∃ q, r.rating = some q ∧ 0 ≤ q ∧ q ≤ 5) := by
  intro raw
  induction raw with
  | nil => intro r hr; simp [cleanedFilter] at hr
  | cons x xs ih =>
    intro r hr
    rw [cleanedFilter] at hr
    by_cases h1 : x.body.data.isEmpty
    · rw [if_pos h1] at hr
      exact ih r hr
    · rw [if_neg h1] at hr
      by_cases h2 : 3 ≤ (pyWords x.body.data).length
      · rw [if_pos (by simpa using h2)] at hr
        rcases List.mem_cons.mp hr with he | he
        · subst he
          refine ⟨h2, ?_⟩
          cases hrate : x.rating with
          | none => left; simp [clampRating, hrate]
          | some q =>
            simp only [clampRating, hrate]
            by_cases hq : 0 ≤ q ∧ q ≤ 5
            · right
              exact ⟨q, by rw [if_pos hq], hq.1, hq.2⟩
            · left
              rw [if_neg hq]
        · exact ih r he
      · rw [if_neg (by simpa using h2)] at hr
        exact ih r hr

/-- A match value of the rating regex lies in [1, 5.9]: the leading
digit contributes [1, 5] and a decimal adds at most 9/10. -/
theorem jsRatingVal_bound (c : Char) (cs : List Char) (h : ratingDigit c = true) :
    1 ≤ jsRatingVal c cs ∧ jsRatingVal c cs ≤ 59 / 10 := by
  simp only [ratingDigit, Bool.and_eq_true] at h
  obtain ⟨h1, h2⟩ := h
  have hc1 : 49 ≤ c.toNat := by simpa using h1
  have hc2 : c.toNat ≤ 53 := by simpa using h2
  have h0 : '0'.toNat = 48 := rfl
  have hd1 : (1 : ℚ) ≤ ((c.toNat - '0'.toNat : ℕ) : ℚ) := by
    have : (1 : ℕ) ≤ c.toNat - '0'.toNat := by omega
    exact_mod_cast this
  have hd2 : ((c.toNat - '0'.toNat : ℕ) : ℚ) ≤ 5 := by
    have : c.toNat - '0'.toNat ≤ 5 := by omega
    exact_mod_cast this
  rcases cs with _ | ⟨s, cs2⟩
  · simp only [jsRatingVal]
    exact ⟨hd1, by linarith⟩
  · rcases cs2 with _ | ⟨d2, rest⟩
    · simp only [jsRatingVal]
      exact ⟨hd1, by linarith⟩
    · simp only [jsRatingVal]
      by_cases hs : ((s = '.' || s = ',') && d2.isDigit) = true
      · rw [if_pos hs]
        simp only [Bool.and_eq_true, Bool.or_eq_true, decide_eq_true_eq] at hs
        have he2 : ((d2.toNat - '0'.toNat : ℕ) : ℚ) ≤ 9 := by
          have hdig := hs.2
          simp only [Char.isDigit, Bool.and_eq_true] at hdig
          have hg1 : 48 ≤ d2.toNat := by simpa using hdig.1
          have hg2 : d2.toNat ≤ 57 := by simpa using hdig.2
          have : d2.toNat - '0'.toNat ≤ 9 := by omega
          exact_mod_cast this
        have he1 : (0 : ℚ) ≤ ((d2.toNat - '0'.toNat : ℕ) : ℚ) := by positivity
        by_cases hdot : s = '.'
        · rw [if_pos hdot]
          exact ⟨by linarith, by linarith⟩
        · rw [if_neg hdot]
          exact ⟨hd1, by linarith⟩
      · rw [if_neg hs]
        exact ⟨hd1, by linarith⟩

/-- Every rating the single-number regex produces lies in [1, 5.9]. -/
theorem jsRatingScan_bound : ∀ (l : List Char) (q : ℚ), jsRatingScan l = some q →
    1 ≤ q ∧ q ≤ 59 / 10 := by
  intro l
  induction l with
  | nil => intro q h; exact absurd h (by simp [jsRatingScan])
  | cons c cs ih =>
    intro q h
    rw [jsRatingScan] at h
    by_cases hc : ratingDigit c = true
    · rw [if_pos hc] at h
      injection h with h
      subst h
      exact jsRatingVal_bound c cs hc
    · rw [if_neg hc] at h
      exact ih q h

/-- The rating-selector loop of the LLM-guided path returns only values
of [1, 5.9]. -/
theorem aiStars_bound : ∀ (rsels : List String) (box : Box) (q : ℚ),
    aiStars box rsels = some q → 1 ≤ q ∧ q ≤ 59 / 10 := by
  intro rsels
  induction rsels with
  | nil => intro box q h; exact absurd h (by simp [aiStars])
  | cons rsel rest ih =>
    intro box q h
    cases hr : box.ratingFor rsel with
    | none =>
      simp only [aiStars, hr] at h
      exact ih box q h
    | some rt =>
      simp only [aiStars, hr] at h
      cases hs : jsRatingScan rt.data with
      | none =>
        simp only [hs] at h
        exact ih box q h
      | some q2 =>
        simp only [hs, Option.some.injEq] at h
        subst h
        exact jsRatingScan_bound rt.data q2 hs

/-- Invariant of the per-box content loop: every collected review has a
body of at least 10 characters and a null or [1, 5.9] rating. -/
theorem aiContentLoop_inv : ∀ (csels : List String) (box : Box) (rsels : List String)
    (found : List Review) (seen : List String),
    (∀ r ∈ found, 10 ≤ r.body.data.length ∧
      (r.rating = none ∨ ∃ q, r.rating = some q ∧ 1 ≤ q ∧ q ≤ 59 / 10)) →
    ∀ r ∈ (aiContentLoop box rsels csels (found, seen)).1,
      10 ≤ r.body.data.length ∧
      (r.rating = none ∨ ∃ q, r.rating = some q ∧ 1 ≤ q ∧ q ≤ 59 / 10) := by
  intro csels
  induction csels with
  | nil => intro box rsels found seen hf r hr; exact hf r hr
  | cons csel rest ih =>
    intro box rsels found seen hf r hr
    cases hc : box.contentFor csel with
    | none =>
      simp only [aiContentLoop, hc] at hr
      exact ih box rsels found seen hf r hr
    | some raw =>
      simp only [aiContentLoop, hc] at hr
      by_cases hcond : ((⟨trimWS raw.data⟩ : String).data.isEmpty ||
          decide ((⟨trimWS raw.data⟩ : String).data.length < 10) ||
          seen.contains (⟨trimWS raw.data⟩ : String)) = true
      · rw [if_pos hcond] at hr
        exact ih box rsels found seen hf r hr
      · rw [if_neg hcond] at hr
        refine ih box rsels _ _ ?_ r hr
        intro r2 hr2
        rcases List.mem_append.mp hr2 with hm | hm
        · exact hf r2 hm
        · rcases List.mem_singleton.mp hm with rfl
          simp only [Bool.or_eq_true, not_or, Bool.not_eq_true] at hcond
          refine ⟨?_, ?_⟩
          · have hlen := hcond.1.2
            simp only [decide_eq_false_iff_not, Nat.not_lt] at hlen
            exact hlen
          · cases hst : aiStars box rsels with
            | none => exact Or.inl rfl
            | some q =>
              exact Or.inr ⟨q, rfl, aiStars_bound rsels box q hst⟩

/-- The box loop preserves the content-loop invariant. -/
theorem aiBoxesLoop_inv : ∀ (boxes : List Box) (rsels csels : List String)
    (st : List Review × List String),
    (∀ r ∈ st.1, 10 ≤ r.body.data.length ∧
      (r.rating = none ∨ ∃ q, r.rating = some q ∧ 1 ≤ q ∧ q ≤ 59 / 10)) →
    ∀ r ∈ (aiBoxesLoop rsels csels boxes st).1,
      10 ≤ r.body.data.length ∧
      (r.rating = none ∨ ∃ q, r.rating = some q ∧ 1 ≤ q ∧ q ≤ 59 / 10) := by
  intro boxes
  induction boxes with
  | nil => intro rsels csels st hst r hr; exact hst r hr
  | cons b bs ih =>
    intro rsels csels st hst r hr
    obtain ⟨found, seen⟩ := st
    rw [aiBoxesLoop] at hr
    refine ih rsels csels _ ?_ r hr
    intro r2 hr2
    exact aiContentLoop_inv csels b rsels found seen hst r2 hr2

/-- Every review of the LLM-guided extraction has a body of at least 10
characters and a null or [1, 5.9] rating. -/
theorem aiExtract_inv : ∀ (dom : String → List Box) (cs ts rs : List String) (r : Review),
    r ∈ aiExtract dom cs ts rs →
    10 ≤ r.body.data.length ∧
    (r.rating = none ∨ ∃ q, r.rating = some q ∧ 1 ≤ q ∧ q ≤ 59 / 10) := by
  intro dom cs ts rs
  suffices h : ∀ (cl : List String) (st : List Review × List String),
      (∀ r ∈ st.1, 10 ≤ r.body.data.length ∧
        (r.rating = none ∨ ∃ q, r.rating = some q ∧ 1 ≤ q ∧ q ≤ 59 / 10)) →
      ∀ r ∈ (cl.foldl (fun st csel => aiBoxesLoop rs ts (dom csel) st) st).1,
        10 ≤ r.body.data.length ∧
        (r.rating = none ∨ ∃ q, r.rating = some q ∧ 1 ≤ q ∧ q ≤ 59 / 10) by
    intro r hr
    exact h cs ([], []) (by simp) r hr
  intro cl
  induction cl with
  | nil => intro st hst r hr; exact hst r hr
  | cons c cl2 ih =>
    intro st hst r hr
    rw [List.foldl_cons] at hr
    exact ih _ (aiBoxesLoop_inv (dom c) rs ts st hst) r hr

/-- C6 (amended): reviews surviving the heuristic path's Python cleanup
have at least 3 whitespace-separated tokens and a rating that is null or
in [0, 5]; LLM-guided reviews are only guaranteed a 10-character body
and a rating that is null or in [1, 5.9] — the original claim's bound of
[0, 5] and 3-token minimum do not hold on that path. -/
theorem review_invariants_by_path :
    (∀ (raw : List Review) (r : Review), r ∈ cleanedFilter raw →
      3 ≤ (pyWords r.body.data).length ∧
      (r.rating = none ∨ ∃ q, r.rating = some q ∧ 0 ≤ q ∧ q ≤ 5)) ∧
    (∀ (dom : String → List Box) (cs ts rs : List String) (r : Review),
      r ∈ aiExtract dom cs ts rs →
      10 ≤ r.body.data.length ∧
      (r.rating = none ∨ ∃ q, r.rating = some q ∧ 1 ≤ q ∧ q ≤ 59 / 10)) :=
  ⟨cleanedFilter_inv, aiExtract_inv⟩

/-- Witness for C6 at a concrete heuristic review kept by the filter. -/
theorem review_invariants_by_path_witness :
    sampleReview "one two three" ∈ cleanedFilter [sampleReview "one two three"] ∧
    (3 ≤ (pyWords (sampleReview "one two three").body.data).length ∧
     ((sampleReview "one two three").rating = none ∨
      ∃ q, (sampleReview "one two three").rating = some q ∧ 0 ≤ q ∧ q ≤ 5)) :=
  ⟨by decide,
   review_invariants_by_path.1 [sampleReview "one two three"] (sampleReview "one two three")
     (by decide)⟩

/-- Two-cons unfolding of noAdjWS. -/
theorem noAdjWS_cc (a b : Char) (t : List Char) :
    noAdjWS (a :: b :: t) = (!(isWS a && isWS b) && noAdjWS (b :: t)) := rfl

/-- noAdjWS passes to the tail. -/
theorem noAdjWS_tail (x : Char) (m : List Char) (h : noAdjWS (x :: m) = true) :
    noAdjWS m = true := by
  cases m with
  | nil => rfl
  | cons y ys => exact (Bool.and_eq_true_iff.mp h).2

/-- Extension of noAdjWS by a head compatible with the next character. -/
theorem noAdjWS_cons_of (x : Char) (m : List Char) (hm : noAdjWS m = true)
    (hh : ∀ y, m.head? = some y → (isWS x && isWS y) = false) :
    noAdjWS (x :: m) = true := by
  cases m with
  | nil => rfl
  | cons y ys =>
    rw [noAdjWS_cc, Bool.and_eq_true_iff]
    exact ⟨by rw [hh y rfl]; rfl, hm⟩

/-- Extension of noAdjWS by a non-whitespace head. -/
theorem noAdjWS_cons_nonWS (x : Char) (m : List Char) (hx : isWS x = false)
    (hm : noAdjWS m = true) : noAdjWS (x :: m) = true :=
  noAdjWS_cons_of x m hm (fun y _ => by rw [hx]; rfl)

/-- noAdjWS restricts to a suffix. -/
theorem noAdj_append_right : ∀ (xs ys : List Char),
    noAdjWS (xs ++ ys) = true → noAdjWS ys = true := by
  intro xs
  induction xs with
  | nil => intro ys h; exact h
  | cons x xt ih => intro ys h; exact ih ys (noAdjWS_tail x (xt ++ ys) h)

/-- noAdjWS restricts to a prefix. -/
theorem noAdj_append_left : ∀ (xs ys : List Char),
    noAdjWS (xs ++ ys) = true → noAdjWS xs = true := by
  intro xs
  induction xs with
  | nil => intro ys h; rfl
  | cons x xt ih =>
    intro ys h
    cases xt with
    | nil => rfl
    | cons b t =>
      rw [List.cons_append, List.cons_append, noAdjWS_cc, Bool.and_eq_true_iff] at h
      rw [noAdjWS_cc, Bool.and_eq_true_iff]
      exact ⟨h.1, ih ys h.2⟩

/-- Concatenation preserves noAdjWS when the boundary pair is not two
whitespace characters. -/
theorem noAdj_glue : ∀ (xs ys : List Char), noAdjWS xs = true → noAdjWS ys = true →
    (∀ a b, xs.getLast? = some a → ys.head? = some b → (isWS a && isWS b) = false) →
    noAdjWS (xs ++ ys) = true := by
  intro xs
  induction xs with
  | nil => intro ys _ hy _; exact hy
  | cons x xt ih =>
    intro ys hx hy hg
    cases xt with
    | nil =>
      refine noAdjWS_cons_of x ys hy ?_
      intro y hy2
      exact hg x y rfl hy2
    | cons b t =>
      rw [List.cons_append]
      rw [noAdjWS_cc, Bool.and_eq_true_iff] at hx
      refine noAdjWS_cons_of x ((b :: t) ++ ys) (ih ys hx.2 hy ?_) ?_
      · intro a b2 hl hh
        refine hg a b2 ?_ hh
        rw [List.getLast?_cons_cons]
        exact hl
      · intro y hy2
        rw [List.cons_append] at hy2
        injection hy2 with hy2
        subst hy2
        have h1 := hx.1
        cases hb : (isWS x && isWS b) with
        | false => rfl
        | true => rw [hb] at h1; exact absurd h1 (by simp)

/-- The whitespace collapse leaves only single spaces: every whitespace
of the output is a space, no two are adjacent, and after absorbed
whitespace the next character is not whitespace. -/
theorem collapseWSAux_props : ∀ l : List Char,
    (wsOnlySpace (collapseWSAux false l) ∧ wsOnlySpace (collapseWSAux true l)) ∧
    (noAdjWS (collapseWSAux false l) = true ∧ noAdjWS (collapseWSAux true l) = true) ∧
    (∀ c, (collapseWSAux true l).head? = some c → isWS c = false) := by
  intro l
  induction l with
  | nil =>
    refine ⟨⟨?_, ?_⟩, ⟨rfl, rfl⟩, ?_⟩ <;> intro c hc <;> simp [collapseWSAux] at hc
  | cons c cs ih =>
    obtain ⟨⟨hwf, hwt⟩, ⟨hnf, hnt⟩, hh⟩ := ih
    by_cases hc : isWS c = true
    · have e1 : collapseWSAux false (c :: cs) = ' ' :: collapseWSAux true cs := by
        rw [collapseWSAux, if_pos hc]
        rfl
      have e2 : collapseWSAux true (c :: cs) = collapseWSAux true cs := by
        rw [collapseWSAux, if_pos hc]
        rfl
      refine ⟨⟨?_, ?_⟩, ⟨?_, ?_⟩, ?_⟩
      · rw [e1]
        intro x hx hwx
        rcases List.mem_cons.mp hx with he | he
        · exact he
        · exact hwt x he hwx
      · rw [e2]; exact hwt
      · rw [e1]
        refine noAdjWS_cons_of ' ' _ hnt ?_
        intro y hy
        rw [hh y hy]
        simp
      · rw [e2]; exact hnt
      · rw [e2]; exact hh
    · have hcf : isWS c = false := by
        cases hcv : isWS c with
        | false => rfl
        | true => exact absurd hcv hc
      have e1 : collapseWSAux false (c :: cs) = c :: collapseWSAux false cs := by
        rw [collapseWSAux, if_neg hc]
      have e2 : collapseWSAux true (c :: cs) = c :: collapseWSAux false cs := by
        rw [collapseWSAux, if_neg hc]
      have hwc : wsOnlySpace (c :: collapseWSAux false cs) := by
        intro x hx hwx
        rcases List.mem_cons.mp hx with he | he
        · rw [he] at hwx
          rw [hwx] at hcf
          exact absurd hcf (by simp)
        · exact hwf x he hwx
      have hnc : noAdjWS (c :: collapseWSAux false cs) = true :=
        noAdjWS_cons_nonWS c _ hcf hnf
      refine ⟨⟨?_, ?_⟩, ⟨?_, ?_⟩, ?_⟩
      · rw [e1]; exact hwc
      · rw [e2]; exact hwc
      · rw [e1]; exact hnc
      · rw [e2]; exact hnc
      · rw [e2]
        intro x hx
        injection hx with hx
        rw [← hx]
        exact hcf

/-- The trimmed list sits inside the original. -/
theorem trimWS_decomp (l : List Char) : ∃ xs ys, l = xs ++ trimWS l ++ ys := by
  refine ⟨l.takeWhile isWS, ((l.dropWhile isWS).reverse.takeWhile isWS).reverse, ?_⟩
  rw [trimWS]
  conv_lhs => rw [← List.takeWhile_append_dropWhile (p := isWS) (l := l)]
  rw [List.append_assoc]
  congr 1
  conv_lhs => rw [← List.reverse_reverse (l.dropWhile isWS)]
  conv_lhs => rw [← List.takeWhile_append_dropWhile (p := isWS) (l := (l.dropWhile isWS).reverse)]
  rw [List.reverse_append]

/-- The head surviving a whitespace dropWhile is not whitespace. -/
theorem dropWhile_head_false : ∀ (l : List Char) (c : Char) (cs : List Char),
    l.dropWhile isWS = c :: cs → isWS c = false := by
  intro l
  induction l with
  | nil => intro c cs h; exact absurd h (by simp)
  | cons x xt ih =>
    intro c cs h
    by_cases hx : isWS x = true
    · rw [List.dropWhile_cons_of_pos hx] at h
      exact ih c cs h
    · rw [List.dropWhile_cons_of_neg hx] at h
      injection h with h1 _
      rw [← h1]
      cases hv : isWS x with
      | false => rfl
      | true => exact absurd hv hx

/-- The head of a trimmed list is not whitespace. -/
theorem trimWS_head_false : ∀ (l : List Char) (c : Char) (cs : List Char),
    trimWS l = c :: cs → isWS c = false := by
  intro l c cs h
  have hpre : ∃ rest, l.dropWhile isWS = trimWS l ++ rest := by
    refine ⟨((l.dropWhile isWS).reverse.takeWhile isWS).reverse, ?_⟩
    rw [trimWS]
    conv_lhs => rw [← List.reverse_reverse (l.dropWhile isWS)]
    conv_lhs =>
      rw [← List.takeWhile_append_dropWhile (p := isWS) (l := (l.dropWhile isWS).reverse)]
    rw [List.reverse_append]
  obtain ⟨rest, hr⟩ := hpre
  rw [h] at hr
  exact dropWhile_head_false l c (cs ++ rest) (by rw [hr]; simp)

/-- Truncation keeps a prefix of its input. -/
theorem truncAt_decomp : ∀ l : List Char, ∃ ys, l = truncAt l ++ ys := by
  intro l
  induction l with
  | nil => exact ⟨[], rfl⟩
  | cons c cs ih =>
    rw [truncAt]
    by_cases hm : (startsLower ('r' :: 'e' :: 'a' :: 'd' :: ' ' :: 'm' :: 'o' :: 'r' :: 'e' :: []) (c :: cs)
        || startsLower ('s' :: 'h' :: 'o' :: 'w' :: ' ' :: 'm' :: 'o' :: 'r' :: 'e' :: []) (c :: cs)
        || startsLower ('s' :: 'e' :: 'e' :: ' ' :: 'm' :: 'o' :: 'r' :: 'e' :: []) (c :: cs)) = true
    · rw [if_pos hm]
      exact ⟨c :: cs, rfl⟩
    · rw [if_neg hm]
      obtain ⟨ys, hys⟩ := ih
      refine ⟨ys, ?_⟩
      rw [List.cons_append, ← hys]

/-- A split always yields at least one field. -/
theorem splitChar_ne_nil (sep : Char) : ∀ l : List Char, splitChar sep l ≠ [] := by
  intro l
  induction l with
  | nil => simp [splitChar]
  | cons c cs ih =>
    rw [splitChar]
    by_cases h : c = sep
    · rw [if_pos h]; simp
    · rw [if_neg h]
      cases hs : splitChar sep cs with
      | nil => simp
      | cons w ws => simp

/-- Characters of split fields come from the input. -/
theorem splitChar_chars (sep : Char) : ∀ (l : List Char) (w : List Char),
    w ∈ splitChar sep l → ∀ c ∈ w, c ∈ l := by
  intro l
  induction l with
  | nil =>
    intro w hw c hc
    simp [splitChar] at hw
    rw [hw] at hc
    exact absurd hc (by simp)
  | cons x xs ih =>
    intro w hw c hc
    rw [splitChar] at hw
    by_cases h : x = sep
    · rw [if_pos h] at hw
      rcases List.mem_cons.mp hw with he | he
      · rw [he] at hc; exact absurd hc (by simp)
      · exact List.mem_cons_of_mem x (ih w he c hc)
    · rw [if_neg h] at hw
      cases hs : splitChar sep xs with
      | nil => exact absurd hs (splitChar_ne_nil sep xs)
      | cons w0 ws =>
        rw [hs] at hw
        rcases List.mem_cons.mp hw with he | he
        · rw [he] at hc
          rcases List.mem_cons.mp hc with hce | hce
          · rw [hce]; exact List.mem_cons_self x xs
          · refine List.mem_cons_of_mem x (ih w0 ?_ c hce)
            rw [hs]
            exact List.mem_cons_self w0 ws
        · refine List.mem_cons_of_mem x (ih w ?_ c hc)
          rw [hs]
          exact List.mem_cons_of_mem w0 he

/-- No split field contains the separator. -/
theorem splitChar_no_sep (sep : Char) : ∀ (l : List Char) (w : List Char),
    w ∈ splitChar sep l → sep ∉ w := by
  intro l
  induction l with
  | nil =>
    intro w hw
    simp [splitChar] at hw
    rw [hw]
    simp
  | cons x xs ih =>
    intro w hw
    rw [splitChar] at hw
    by_cases h : x = sep
    · rw [if_pos h] at hw
      rcases List.mem_cons.mp hw with he | he
      · rw [he]; simp
      · exact ih w he
    · rw [if_neg h] at hw
      cases hs : splitChar sep xs with
      | nil => exact absurd hs (splitChar_ne_nil sep xs)
      | cons w0 ws =>
        rw [hs] at hw
        rcases List.mem_cons.mp hw with he | he
        · rw [he]
          intro hmem
          rcases List.mem_cons.mp hmem with hx | hx
          · exact h hx.symm
          · exact ih w0 (by rw [hs]; exact List.mem_cons_self w0 ws) hx
        · exact ih w (by rw [hs]; exact List.mem_cons_of_mem w0 he)

/-- Splitting a single-spaced list with no leading space on the space
separator yields words that are all non-empty except possibly the last
(strong induction on the length). -/
theorem splitChar_okTail : ∀ (n : Nat) (l : List Char), l.length ≤ n →
    wsOnlySpace l → noAdjWS l = true → (∀ c cs, l = c :: cs → c ≠ ' ') →
    okTail (splitChar ' ' l) := by
  intro n
  induction n with
  | zero =>
    intro l hl _ _ _
    have h0 : l = [] := List.eq_nil_of_length_eq_zero (Nat.le_zero.mp hl)
    rw [h0]
    simp [splitChar, okTail]
  | succ n ih =>
    intro l hl hws hadj hhead
    cases l with
    | nil => simp [splitChar, okTail]
    | cons c cs =>
      have hc : ¬(c = ' ') := hhead c cs rfl
      rw [splitChar, if_neg hc]
      cases cs with
      | nil => simp [splitChar, okTail]
      | cons c2 cs2 =>
        by_cases h2 : c2 = ' '
        · subst h2
          rw [splitChar, if_pos rfl]
          cases hs : splitChar ' ' cs2 with
          | nil => exact absurd hs (splitChar_ne_nil ' ' cs2)
          | cons w ws =>
            have hok : okTail (splitChar ' ' cs2) := by
              refine ih cs2 ?_ ?_ ?_ ?_
              · have := hl
                simp only [List.length_cons] at this ⊢
                omega
              · intro x hx hwx
                exact hws x (List.mem_cons_of_mem c (List.mem_cons_of_mem ' ' hx)) hwx
              · exact noAdjWS_tail ' ' cs2 (noAdjWS_tail c (' ' :: cs2) hadj)
              · intro d ds hd
                have htl : noAdjWS (' ' :: cs2) = true := noAdjWS_tail c (' ' :: cs2) hadj
                rw [hd] at htl
                have hp : (!(isWS ' ' && isWS d)) = true := (Bool.and_eq_true_iff.mp htl).1
                have hsp : isWS ' ' = true := by decide
                rw [hsp] at hp
                simp only [Bool.true_and, Bool.not_eq_true'] at hp
                intro he
                rw [he] at hp
                exact absurd hp (by decide)
            rw [hs] at hok
            cases ws with
            | nil => simp [okTail]
            | cons w2 ws2 =>
              exact ⟨by simp, hok⟩
        · cases hs : splitChar ' ' (c2 :: cs2) with
          | nil => exact absurd hs (splitChar_ne_nil ' ' (c2 :: cs2))
          | cons w ws =>
            show okTail ((c :: w) :: ws)
            have hok : okTail (splitChar ' ' (c2 :: cs2)) := by
              refine ih (c2 :: cs2) ?_ ?_ ?_ ?_
              · have := hl
                simp only [List.length_cons] at this ⊢
                omega
              · intro x hx hwx
                exact hws x (List.mem_cons_of_mem c hx) hwx
              · exact noAdjWS_tail c (c2 :: cs2) hadj
              · intro d ds hd
                injection hd with hd1 _
                rw [← hd1]
                exact h2
            rw [hs] at hok
            cases ws with
            | nil => simp [okTail]
            | cons w2 ws2 =>
              exact ⟨by simp, hok.2⟩

/-- A list without whitespace has no adjacent whitespace pair. -/
theorem noAdjWS_all_nonWS : ∀ w : List Char, (∀ c ∈ w, isWS c = false) →
    noAdjWS w = true := by
  intro w
  induction w with
  | nil => intro _; rfl
  | cons c cs ih =>
    intro h
    refine noAdjWS_cons_nonWS c cs (h c (List.mem_cons_self c cs)) (ih ?_)
    intro x hx
    exact h x (List.mem_cons_of_mem c hx)

/-- The phrase-collapse loop keeps the built text free of adjacent
whitespace: words are whitespace-free, only the final word may be empty,
and the accumulated text never ends in whitespace while words remain. -/
theorem dedupWords_noAdj : ∀ (ws : List (List Char)) (cleaned : List Char),
    (∀ w ∈ ws, ∀ c ∈ w, isWS c = false) → okTail ws →
    noAdjWS cleaned = true →
    (∀ a, cleaned.getLast? = some a → isWS a = false) →
    noAdjWS (dedupWords ws cleaned) = true := by
  intro ws
  induction ws with
  | nil => intro cleaned _ _ hc _; exact hc
  | cons w rest ih =>
    intro cleaned hnw hok hadj hlast
    rw [dedupWords]
    by_cases hskip : (containsSub (joinSpace ((w :: rest).take 3)) cleaned &&
        decide ((splitChar ' ' (joinSpace ((w :: rest).take 3))).length > 2)) = true
    · rw [if_pos hskip]
      refine ih cleaned ?_ ?_ hadj hlast
      · intro w2 hw2 c hc
        exact hnw w2 (List.mem_cons_of_mem w hw2) c hc
      · cases rest with
        | nil => trivial
        | cons r2 rs => exact hok.2
    · rw [if_neg hskip]
      cases hw : w with
      | nil =>
        have hrest : rest = [] := by
          cases rest with
          | nil => rfl
          | cons r2 rs =>
            rw [hw] at hok
            exact absurd rfl hok.1
        subst hrest
        rw [dedupWords]
        by_cases hce : cleaned.isEmpty
        · rw [if_pos hce]
          rfl
        · rw [if_neg hce]
          refine noAdj_glue cleaned (' ' :: []) hadj rfl ?_
          intro a b hla hhb
          injection hhb with hhb
          rw [hlast a hla, ← hhb]
          rfl
      | cons c0 wt =>
        have hwn : ∀ c ∈ w, isWS c = false := hnw w (List.mem_cons_self w rest)
        rw [← hw]
        have hwadj : noAdjWS w = true := noAdjWS_all_nonWS w hwn
        have hrest_ok : okTail rest := by
          cases rest with
          | nil => trivial
          | cons r2 rs => exact hok.2
        have hrest_nw : ∀ w2 ∈ rest, ∀ c ∈ w2, isWS c = false := by
          intro w2 hw2 c hc
          exact hnw w2 (List.mem_cons_of_mem w hw2) c hc
        by_cases hce : cleaned.isEmpty
        · rw [if_pos hce]
          refine ih w hrest_nw hrest_ok hwadj ?_
          intro a hla
          exact hwn a (List.mem_of_mem_getLast? hla)
        · rw [if_neg hce]
          have hyne : (' ' :: w) ≠ [] := by simp
          have hcadj : noAdjWS (cleaned ++ ' ' :: w) = true := by
            refine noAdj_glue cleaned (' ' :: w) hadj ?_ ?_
            · refine noAdjWS_cons_of ' ' w hwadj ?_
              intro y hy
              rw [hwn y (List.mem_of_mem_head? hy)]
              rw [Bool.and_false]
            · intro a b hla hhb
              injection hhb with hhb
              rw [hlast a hla]
              rfl
          refine ih (cleaned ++ ' ' :: w) hrest_nw hrest_ok hcadj ?_
          intro a hla
          rw [List.getLast?_append_of_ne_nil cleaned hyne] at hla
          have ham : a ∈ ' ' :: w := List.mem_of_mem_getLast? hla
          rcases List.mem_cons.mp ham with he | he
          · exfalso
            rw [hw, List.getLast?_cons_cons] at hla
            have ham2 : a ∈ w := by
              rw [hw]
              exact List.mem_of_mem_getLast? hla
            have hfa := hwn a ham2
            rw [he] at hfa
            exact absurd hfa (by decide)
          · exact hwn a he

/-- The normalizer output never contains two adjacent whitespace
characters. -/
theorem cleanTextL_noAdj (l : List Char) : noAdjWS (cleanTextL l) = true := by
  obtain ⟨⟨hwf, _⟩, ⟨hnf, _⟩, _⟩ := collapseWSAux_props l
  have hwf1 : wsOnlySpace (collapseWS l) := hwf
  have hnf1 : noAdjWS (collapseWS l) = true := hnf
  obtain ⟨xs, ys, hdec⟩ := trimWS_decomp (collapseWS l)
  have hnt1 : noAdjWS (trimWS (collapseWS l)) = true := by
    rw [hdec] at hnf1
    rw [List.append_assoc] at hnf1
    exact noAdj_append_left _ ys (noAdj_append_right xs _ hnf1)
  have hwt1 : wsOnlySpace (trimWS (collapseWS l)) := by
    intro c hc hwc
    refine hwf1 c ?_ hwc
    rw [hdec]
    simp only [List.mem_append]
    exact Or.inl (Or.inr hc)
  obtain ⟨zs, hzs⟩ := truncAt_decomp (trimWS (collapseWS l))
  have hnt2 : noAdjWS (truncAt (trimWS (collapseWS l))) = true := by
    rw [hzs] at hnt1
    exact noAdj_append_left _ zs hnt1
  have hwt2 : wsOnlySpace (truncAt (trimWS (collapseWS l))) := by
    intro c hc hwc
    refine hwt1 c ?_ hwc
    rw [hzs]
    exact List.mem_append_left zs hc
  have hh2 : ∀ c cs, truncAt (trimWS (collapseWS l)) = c :: cs → isWS c = false := by
    intro c cs hcc
    refine trimWS_head_false (collapseWS l) c (cs ++ zs) ?_
    rw [hzs, hcc, List.cons_append]
  have hok : okTail (splitChar ' ' (truncAt (trimWS (collapseWS l)))) := by
    refine splitChar_okTail (truncAt (trimWS (collapseWS l))).length _ (Nat.le_refl _)
      hwt2 hnt2 ?_
    intro c cs hcc he
    have := hh2 c cs hcc
    rw [he] at this
    exact absurd this (by decide)
  have hallw : ∀ w ∈ splitChar ' ' (truncAt (trimWS (collapseWS l))), ∀ c ∈ w,
      isWS c = false := by
    intro w hw c hc
    have hct : c ∈ truncAt (trimWS (collapseWS l)) :=
      splitChar_chars ' ' _ w hw c hc
    have hns : ' ' ∉ w := splitChar_no_sep ' ' _ w hw
    cases hv : isWS c with
    | false => rfl
    | true =>
      have := hwt2 c hct hv
      rw [this] at hc
      exact absurd hc hns
  have hd : noAdjWS (dedupWords (splitChar ' ' (truncAt (trimWS (collapseWS l)))) []) = true := by
    refine dedupWords_noAdj _ [] hallw hok rfl ?_
    intro a ha
    exact absurd ha (by simp)
  rw [cleanTextL]
  obtain ⟨as, bs, hab⟩ := trimWS_decomp
    (dedupWords (splitChar ' ' (truncAt (trimWS (collapseWS l)))) [])
  rw [hab, List.append_assoc] at hd
  exact noAdj_append_left _ bs (noAdj_append_right as _ hd)

/-- C8 (amended): for every input string the normalizer output has no
run of two or more whitespace characters, the spec examples
cleanText "a read more b" = "a" and cleanText "" = "" hold; the
idempotence part of the claim is dropped (see the counterexample). -/
theorem cleanText_props :
    (∀ s : String, noAdjWS (cleanText s).data = true) ∧
    cleanText "a read more b" = "a" ∧
    cleanText "" = "" :=
  ⟨fun s => cleanTextL_noAdj s.data, by decide, by decide⟩

/-- Counterexample to C8 as stated: cleanText is not idempotent. The
phrase collapse of the first pass deletes the words between read and
more, so the output contains the marker read more, and a second pass
truncates it away. -/
theorem cleanText_not_idempotent_cex :
    cleanText (cleanText "b c more z x read b c more z w") ≠
      cleanText "b c more z x read b c more z w" := by decide
